import Mathlib

/-! Formal model of the Traffic-Graph Builder described in spec.md.

The repository's notebook `examples/packet_capture_graph.ipynb` invokes the
builder script `pcap_to_parquet.py`, but that script itself is not part of the
source tree; only its caller and the spec describe it.  The definitions below
therefore model the builder from the spec: a textual packet-capture log is
converted into a node table (distinct host identifiers in first-seen order)
and an edge table (one row per distinct unordered host pair with an
accumulated byte weight). -/

namespace PacketGraph

/-- Characters of one text token or line (a shallow embedding of a string). -/
abbrev Str := List Char

/-- Modelled from the spec: `pcap_to_parquet.py` is missing from the sources.
A LogLine is one parsed record from the capture log: source host identifier
(port stripped), destination host identifier (port stripped), byte count. -/
structure LogLine where
  src : Str
  dst : Str
  bytes : Nat
  deriving DecidableEq

/-- Modelled from the spec: whitespace-delimited tokenization of a free-text
line, accumulating the current word in reverse. -/
def wordsAux : Str → Str → List Str
  | cur, [] => if cur = [] then [] else [cur.reverse]
  | cur, c :: cs =>
    if c = ' ' then
      if cur = [] then wordsAux [] cs else cur.reverse :: wordsAux [] cs
    else wordsAux (c :: cur) cs

/-- Modelled from the spec: the whitespace-delimited tokens of one line. -/
def tokens (line : Str) : List Str := wordsAux [] line

/-- Modelled from the spec: host identity is everything before the last
dot-delimited segment of a token (the trailing port component is removed). -/
def stripPort (t : Str) : Str :=
  ((t.reverse.dropWhile fun c => decide (c ≠ '.')).drop 1).reverse

/-- Modelled from the spec: the destination token carries a trailing colon,
which is removed before the port is stripped. -/
def stripColon (t : Str) : Str :=
  match t.reverse with
  | ':' :: rest => rest.reverse
  | _ => t

/-- Modelled from the spec: plain decimal parse of the byte-count token;
`none` when the token is empty or contains a non-digit. -/
def parseNat? (t : Str) : Option Nat :=
  if t ≠ [] ∧ t.all Char.isDigit then
    some (t.foldl (fun n c => n * 10 + (c.toNat - 48)) 0)
  else none

/-- Modelled from the spec: input line shape recognition.  A line is accepted
when its whitespace tokens contain the literal direction marker `>` with at
least one token before it (the source `host.port` token, itself preceded by
the timestamp or protocol tag) and a destination token after it.  The two
host identifiers are the port-stripped source token and the colon- then
port-stripped destination token. -/
def parseShape (line : Str) : Option (Str × Str) :=
  let toks := tokens line
  match toks.findIdx? (fun t => decide (t = ['>'])) with
  | none => none
  | some i =>
    if 1 ≤ i ∧ i + 1 < toks.length then
      some (stripPort (toks.getD (i - 1) []), stripPort (stripColon (toks.getD (i + 1) [])))
    else none

/-- Modelled from the spec: the byte count of a line is its trailing token
parsed as a number, with a missing or non-numeric value treated as zero. -/
def parseBytes (line : Str) : Nat :=
  ((tokens line).getLast?.bind parseNat?).getD 0

/-- Modelled from the spec: parse one line into a LogLine, or reject it when
it does not match the expected shape. -/
def parseLine (line : Str) : Option LogLine :=
  (parseShape line).map fun p => ⟨p.1, p.2, parseBytes line⟩

/-- Modelled from the spec: one edge-table row, columns source node index,
target node index, accumulated byte weight. -/
structure Edge where
  source : Nat
  target : Nat
  weight : Nat
  deriving DecidableEq

/-- Modelled from the spec: the two output tables of the builder.  The node
table is the list of distinct host identifiers, a host's index being its
position; the edge table is the list of edge rows in first-created order. -/
structure Graph where
  nodes : List Str
  edges : List Edge
  deriving DecidableEq

/-- Insert an element at the end of a list unless it is already present. -/
def insNew [DecidableEq α] (acc : List α) (a : α) : List α :=
  if a ∈ acc then acc else acc ++ [a]

/-- The distinct elements of a list in order of first appearance. -/
def firstSeen [DecidableEq α] (xs : List α) : List α := xs.foldl insNew []

/-- Modelled from the spec: register a host identifier in the node set if not
already present, appending it (its index is the count of hosts seen so far). -/
def registerNode (nodes : List Str) (h : Str) : List Str := insNew nodes h

/-- Index of the first occurrence of an element (length when absent). -/
def idxOf [DecidableEq α] : List α → α → Nat
  | [], _ => 0
  | a :: as, x => if a = x then 0 else idxOf as x + 1

/-- Normalized representative of an unordered pair of node indices. -/
def upair (i j : Nat) : Nat × Nat := if i ≤ j then (i, j) else (j, i)

/-- Modelled from the spec: look up the edge for the unordered pair of node
indices and add the byte count to its weight, or create the edge at the end
of the table when the pair has not been observed before. -/
def addFlow : List Edge → Nat → Nat → Nat → List Edge
  | [], i, j, b => [⟨i, j, b⟩]
  | e :: es, i, j, b =>
    if upair e.source e.target = upair i j then
      ⟨e.source, e.target, e.weight + b⟩ :: es
    else e :: addFlow es i j b

/-- Modelled from the spec: per-line processing — register both hosts, then
look up or create the edge for the unordered index pair (self-pairs are
treated like any other pair) and add the line's byte count to its weight. -/
def step (g : Graph) (l : LogLine) : Graph :=
  let nodes2 := registerNode (registerNode g.nodes l.src) l.dst
  { nodes := nodes2,
    edges := addFlow g.edges (idxOf nodes2 l.src) (idxOf nodes2 l.dst) l.bytes }

/-- Modelled from the spec: strictly sequential processing of the accepted
records, starting from two empty tables. -/
def processLines (ls : List LogLine) : Graph := ls.foldl step ⟨[], []⟩

/-- Modelled from the spec: the Traffic-Graph Builder — parse each input line,
silently skip the malformed ones, and process the accepted records in order. -/
def build (lines : List Str) : Graph := processLines (lines.filterMap parseLine)

/-- The stream of host identifiers mentioned by a list of records, source
before destination, in processing order. -/
def hostsOf : List LogLine → List Str
  | [] => []
  | l :: ls => l.src :: l.dst :: hostsOf ls

/-- The stream of normalized index pairs of a list of records relative to a
node table. -/
def pairsOf (N : List Str) (ls : List LogLine) : List (Nat × Nat) :=
  ls.map fun l => upair (idxOf N l.src) (idxOf N l.dst)

/-- Total byte count of the records whose normalized index pair relative to a
node table equals the given pair. -/
def weightSum (N : List Str) (p : Nat × Nat) : List LogLine → Nat
  | [] => 0
  | l :: ls =>
    (if upair (idxOf N l.src) (idxOf N l.dst) = p then l.bytes else 0) + weightSum N p ls

/-- Total byte count of the records whose source and destination hosts equal
the given pair of hosts in either direction. -/
def hostPairSum (a b : Str) : List LogLine → Nat
  | [] => 0
  | l :: ls =>
    (if (l.src = a ∧ l.dst = b) ∨ (l.src = b ∧ l.dst = a) then l.bytes else 0) +
      hostPairSum a b ls

theorem registerNode_eq_insNew (nodes : List Str) (h : Str) :
    registerNode nodes h = insNew nodes h := rfl

theorem insNew_extend [DecidableEq α] (acc : List α) (a : α) :
    ∃ t, insNew acc a = acc ++ t := by
  by_cases h : a ∈ acc
  · exact ⟨[], by simp [insNew, h]⟩
  · exact ⟨[a], by simp [insNew, h]⟩

theorem mem_insNew [DecidableEq α] {acc : List α} {x a : α} :
    a ∈ insNew acc x ↔ a ∈ acc ∨ a = x := by
  by_cases h : x ∈ acc
  · simp only [insNew, if_pos h]
    refine ⟨Or.inl, ?_⟩
    rintro (ha | rfl)
    · exact ha
    · exact h
  · simp [insNew, h]

theorem nodup_insNew [DecidableEq α] {acc : List α} (h : acc.Nodup) (a : α) :
    (insNew acc a).Nodup := by
  by_cases ha : a ∈ acc
  · simpa [insNew, ha] using h
  · rw [insNew, if_neg ha, show acc ++ [a] = acc ++ a :: [] from rfl, List.nodup_middle]
    simp [h, ha]

theorem foldl_insNew_extend [DecidableEq α] (xs acc : List α) :
    ∃ t, xs.foldl insNew acc = acc ++ t := by
  induction xs generalizing acc with
  | nil => exact ⟨[], by simp⟩
  | cons x xs ih =>
    obtain ⟨u, hu⟩ := insNew_extend acc x
    obtain ⟨t, ht⟩ := ih (insNew acc x)
    exact ⟨u ++ t, by rw [List.foldl_cons, ht, hu, List.append_assoc]⟩

theorem mem_foldl_insNew [DecidableEq α] {a : α} (xs acc : List α) :
    a ∈ xs.foldl insNew acc ↔ a ∈ acc ∨ a ∈ xs := by
  induction xs generalizing acc with
  | nil => simp
  | cons x xs ih =>
    rw [List.foldl_cons, ih, mem_insNew]
    simp only [List.mem_cons]
    tauto

theorem nodup_foldl_insNew [DecidableEq α] (xs : List α) {acc : List α} (h : acc.Nodup) :
    (xs.foldl insNew acc).Nodup := by
  induction xs generalizing acc with
  | nil => simpa
  | cons x xs ih => exact ih (nodup_insNew h x)

theorem mem_firstSeen [DecidableEq α] {a : α} (xs : List α) :
    a ∈ firstSeen xs ↔ a ∈ xs := by
  rw [firstSeen, mem_foldl_insNew]
  simp

theorem nodup_firstSeen [DecidableEq α] (xs : List α) : (firstSeen xs).Nodup :=
  nodup_foldl_insNew xs List.nodup_nil

theorem firstSeen_append [DecidableEq α] (xs ys : List α) :
    firstSeen (xs ++ ys) = ys.foldl insNew (firstSeen xs) := by
  rw [firstSeen, firstSeen, List.foldl_append]

theorem firstSeen_concat [DecidableEq α] (xs : List α) (a : α) :
    firstSeen (xs ++ [a]) = insNew (firstSeen xs) a := by
  rw [firstSeen_append]
  rfl

theorem firstSeen_extend [DecidableEq α] (xs ys : List α) :
    ∃ t, firstSeen (xs ++ ys) = firstSeen xs ++ t := by
  rw [firstSeen_append]
  exact foldl_insNew_extend ys (firstSeen xs)

theorem idxOf_lt_length [DecidableEq α] {l : List α} {a : α} (h : a ∈ l) :
    idxOf l a < l.length := by
  induction l with
  | nil => cases h
  | cons x l ih =>
    by_cases hx : x = a
    · simp [idxOf, hx]
    · have ha : a ∈ l := by
        rcases List.mem_cons.mp h with h1 | h1
        · exact absurd h1.symm hx
        · exact h1
      simp only [idxOf, if_neg hx, List.length_cons]
      exact Nat.succ_lt_succ (ih ha)

theorem idxOf_append_left [DecidableEq α] {l₁ : List α} {a : α} (h : a ∈ l₁) (l₂ : List α) :
    idxOf (l₁ ++ l₂) a = idxOf l₁ a := by
  induction l₁ with
  | nil => cases h
  | cons x l ih =>
    by_cases hx : x = a
    · simp [idxOf, hx]
    · have ha : a ∈ l := by
        rcases List.mem_cons.mp h with h1 | h1
        · exact absurd h1.symm hx
        · exact h1
      simp [idxOf, hx, ih ha]

theorem getD_idxOf [DecidableEq α] {l : List α} {a : α} (h : a ∈ l) (d : α) :
    l.getD (idxOf l a) d = a := by
  induction l with
  | nil => cases h
  | cons x l ih =>
    by_cases hx : x = a
    · simp [idxOf, hx]
    · have ha : a ∈ l := by
        rcases List.mem_cons.mp h with h1 | h1
        · exact absurd h1.symm hx
        · exact h1
      simp only [idxOf, if_neg hx, List.getD_cons_succ]
      exact ih ha

theorem idxOf_getD [DecidableEq α] {l : List α} (hn : l.Nodup) :
    ∀ {i : Nat}, i < l.length → ∀ d, idxOf l (l.getD i d) = i := by
  induction l with
  | nil =>
    intro i hi
    simp at hi
  | cons x l ih =>
    intro i hi d
    match i with
    | 0 => simp [idxOf]
    | i + 1 =>
      have hx : x ∉ l := (List.nodup_cons.mp hn).1
      have hl : l.Nodup := (List.nodup_cons.mp hn).2
      have hi2 : i < l.length := by simpa using hi
      have hmem : l.getD i d ∈ l := by
        rw [List.getD_eq_getElem l d hi2]
        exact List.getElem_mem hi2
      have hne : ¬x = l.getD i d := fun hEq => hx (hEq ▸ hmem)
      rw [show (x :: l).getD (i + 1) d = l.getD i d from List.getD_cons_succ]
      simp only [idxOf, if_neg hne]
      rw [ih hl hi2 d]

theorem processLines_concat (ls : List LogLine) (l : LogLine) :
    processLines (ls ++ [l]) = step (processLines ls) l := by
  rw [processLines, processLines, List.foldl_append]
  rfl

theorem nodes_step (g : Graph) (l : LogLine) :
    (step g l).nodes = insNew (insNew g.nodes l.src) l.dst := rfl

theorem edges_step (g : Graph) (l : LogLine) :
    (step g l).edges =
      addFlow g.edges (idxOf (step g l).nodes l.src) (idxOf (step g l).nodes l.dst) l.bytes :=
  rfl

theorem hostsOf_append (ls₁ ls₂ : List LogLine) :
    hostsOf (ls₁ ++ ls₂) = hostsOf ls₁ ++ hostsOf ls₂ := by
  induction ls₁ with
  | nil => rfl
  | cons l ls ih => simp [hostsOf, ih]

theorem mem_hostsOf {ls : List LogLine} {l : LogLine} (h : l ∈ ls) :
    l.src ∈ hostsOf ls ∧ l.dst ∈ hostsOf ls := by
  induction ls with
  | nil => cases h
  | cons x ls ih =>
    rcases List.mem_cons.mp h with rfl | hmem
    · simp [hostsOf]
    · have hih := ih hmem
      simp [hostsOf, hih.1, hih.2]

theorem pairsOf_append (N : List Str) (ls₁ ls₂ : List LogLine) :
    pairsOf N (ls₁ ++ ls₂) = pairsOf N ls₁ ++ pairsOf N ls₂ := by
  simp [pairsOf]

theorem pairsOf_extend {ls : List LogLine} {N t : List Str}
    (h : ∀ l ∈ ls, l.src ∈ N ∧ l.dst ∈ N) :
    pairsOf (N ++ t) ls = pairsOf N ls := by
  induction ls with
  | nil => rfl
  | cons x ls ih =>
    have hx := h x (List.mem_cons_self x ls)
    have hih := ih fun l hl => h l (List.mem_cons_of_mem x hl)
    simp only [pairsOf, List.map_cons] at hih ⊢
    rw [idxOf_append_left hx.1, idxOf_append_left hx.2, hih]

theorem weightSum_concat (N : List Str) (p : Nat × Nat) (ls : List LogLine) (l : LogLine) :
    weightSum N p (ls ++ [l]) =
      weightSum N p ls + (if upair (idxOf N l.src) (idxOf N l.dst) = p then l.bytes else 0) := by
  induction ls with
  | nil => simp [weightSum]
  | cons x ls ih =>
    rw [List.cons_append, weightSum, weightSum, ih]
    omega

theorem weightSum_extend {ls : List LogLine} {N t : List Str} (p : Nat × Nat)
    (h : ∀ l ∈ ls, l.src ∈ N ∧ l.dst ∈ N) :
    weightSum (N ++ t) p ls = weightSum N p ls := by
  induction ls with
  | nil => rfl
  | cons x ls ih =>
    have hx := h x (List.mem_cons_self x ls)
    rw [weightSum, weightSum, idxOf_append_left hx.1, idxOf_append_left hx.2,
      ih fun l hl => h l (List.mem_cons_of_mem x hl)]

theorem weightSum_eq_zero {ls : List LogLine} {N : List Str} {p : Nat × Nat}
    (h : p ∉ pairsOf N ls) : weightSum N p ls = 0 := by
  induction ls with
  | nil => rfl
  | cons x ls ih =>
    have hx : ¬upair (idxOf N x.src) (idxOf N x.dst) = p := by
      intro hEq
      exact h (by simp [pairsOf, List.mem_cons, hEq])
    have htail : p ∉ pairsOf N ls := by
      intro hmem
      exact h (by simp only [pairsOf, List.map_cons, List.mem_cons]; exact Or.inr hmem)
    rw [weightSum, if_neg hx, ih htail]

theorem addFlow_endpoints (es : List Edge) (i j b : Nat) :
    ∀ f ∈ addFlow es i j b,
      (∃ e ∈ es, f.source = e.source ∧ f.target = e.target) ∨
        (f.source = i ∧ f.target = j) := by
  induction es with
  | nil =>
    intro f hf
    simp only [addFlow, List.mem_singleton] at hf
    subst hf
    exact Or.inr ⟨rfl, rfl⟩
  | cons e es ih =>
    intro f hf
    simp only [addFlow] at hf
    by_cases hc : upair e.source e.target = upair i j
    · rw [if_pos hc] at hf
      rcases List.mem_cons.mp hf with rfl | hmem
      · exact Or.inl ⟨e, List.mem_cons_self e es, rfl, rfl⟩
      · exact Or.inl ⟨f, List.mem_cons_of_mem e hmem, rfl, rfl⟩
    · rw [if_neg hc] at hf
      rcases List.mem_cons.mp hf with rfl | hmem
      · exact Or.inl ⟨f, List.mem_cons_self f es, rfl, rfl⟩
      · rcases ih f hmem with ⟨e2, he2, h1, h2⟩ | hr
        · exact Or.inl ⟨e2, List.mem_cons_of_mem e he2, h1, h2⟩
        · exact Or.inr hr

theorem addFlow_map_upair (es : List Edge) (i j b : Nat) :
    (addFlow es i j b).map (fun e => upair e.source e.target) =
      insNew (es.map fun e => upair e.source e.target) (upair i j) := by
  induction es with
  | nil => simp [addFlow, insNew]
  | cons e es ih =>
    by_cases hc : upair e.source e.target = upair i j
    · simp only [addFlow, if_pos hc, List.map_cons]
      rw [insNew, if_pos (List.mem_cons.mpr (Or.inl hc.symm))]
    · simp only [addFlow, if_neg hc, List.map_cons, ih]
      by_cases hm : upair i j ∈ es.map fun e => upair e.source e.target
      · rw [insNew, if_pos hm, insNew, if_pos (List.mem_cons_of_mem _ hm)]
      · rw [insNew, if_neg hm, insNew, if_neg (by
          intro hmem
          rcases List.mem_cons.mp hmem with h1 | h1
          · exact hc h1.symm
          · exact hm h1)]
        rfl

theorem addFlow_weight (es : List Edge) (i j b : Nat) (W : Nat × Nat → Nat)
    (hd : (es.map fun e => upair e.source e.target).Nodup)
    (hW : ∀ e ∈ es, e.weight = W (upair e.source e.target))
    (h0 : upair i j ∉ es.map (fun e => upair e.source e.target) → W (upair i j) = 0) :
    ∀ f ∈ addFlow es i j b,
      f.weight = W (upair f.source f.target) +
        (if upair f.source f.target = upair i j then b else 0) := by
  induction es with
  | nil =>
    intro f hf
    simp only [addFlow, List.mem_singleton] at hf
    subst hf
    show b = W (upair i j) + if upair i j = upair i j then b else 0
    rw [if_pos rfl, h0 (by simp), Nat.zero_add]
  | cons e es ih =>
    have hd2 : upair e.source e.target ∉ (es.map fun x => upair x.source x.target) ∧
        (es.map fun x => upair x.source x.target).Nodup := by
      rw [List.map_cons, List.nodup_cons] at hd
      exact hd
    intro f hf
    simp only [addFlow] at hf
    by_cases hc : upair e.source e.target = upair i j
    · rw [if_pos hc] at hf
      rcases List.mem_cons.mp hf with rfl | hmem
      · show e.weight + b = W (upair e.source e.target) + _
        rw [hW e (List.mem_cons_self e es)]
        show _ = _ + if upair e.source e.target = upair i j then b else 0
        rw [if_pos hc]
      · have hne : ¬upair f.source f.target = upair i j := by
          intro hEq
          apply hd2.1
          rw [hc, ← hEq]
          exact List.mem_map_of_mem _ hmem
        rw [if_neg hne, hW f (List.mem_cons_of_mem e hmem), Nat.add_zero]
    · rw [if_neg hc] at hf
      rcases List.mem_cons.mp hf with rfl | hmem
      · rw [if_neg hc, hW f (List.mem_cons_self f es), Nat.add_zero]
      · have hW2 : ∀ x ∈ es, x.weight = W (upair x.source x.target) := fun x hx =>
          hW x (List.mem_cons_of_mem e hx)
        have h02 : upair i j ∉ (es.map fun x => upair x.source x.target) →
            W (upair i j) = 0 := by
          intro hnm
          apply h0
          rw [List.map_cons]
          intro hmem2
          rcases List.mem_cons.mp hmem2 with h1 | h1
          · exact hc h1.symm
          · exact hnm h1
        exact ih hd2.2 hW2 h02 f hmem

theorem hostsOf_singleton (l : LogLine) : hostsOf [l] = [l.src, l.dst] := rfl

theorem processLines_inv (ls : List LogLine) :
    (processLines ls).nodes = firstSeen (hostsOf ls) ∧
    (∀ e ∈ (processLines ls).edges,
        e.source < (processLines ls).nodes.length ∧
        e.target < (processLines ls).nodes.length) ∧
    ((processLines ls).edges.map fun e => upair e.source e.target) =
      firstSeen (pairsOf (processLines ls).nodes ls) ∧
    ∀ e ∈ (processLines ls).edges,
      e.weight = weightSum (processLines ls).nodes (upair e.source e.target) ls := by
  induction ls using List.reverseRecOn with
  | nil =>
    refine ⟨rfl, ?_, rfl, ?_⟩
    · intro e he
      exact absurd he (List.not_mem_nil e)
    · intro e he
      exact absurd he (List.not_mem_nil e)
  | append_singleton ls l ih =>
    obtain ⟨ha, hb, hc, hw⟩ := ih
    have hhosts : ∀ x ∈ ls,
        x.src ∈ (processLines ls).nodes ∧ x.dst ∈ (processLines ls).nodes := by
      intro x hx
      rw [ha, mem_firstSeen, mem_firstSeen]
      exact mem_hostsOf hx
    obtain ⟨u1, hu1⟩ := insNew_extend (processLines ls).nodes l.src
    obtain ⟨u2, hu2⟩ := insNew_extend (insNew (processLines ls).nodes l.src) l.dst
    have hN : (step (processLines ls) l).nodes = (processLines ls).nodes ++ (u1 ++ u2) := by
      rw [nodes_step, hu2, hu1, List.append_assoc]
    have hsrcN : l.src ∈ (step (processLines ls) l).nodes := by
      rw [nodes_step]
      exact mem_insNew.mpr (Or.inl (mem_insNew.mpr (Or.inr rfl)))
    have hdstN : l.dst ∈ (step (processLines ls) l).nodes := by
      rw [nodes_step]
      exact mem_insNew.mpr (Or.inr rfl)
    rw [processLines_concat]
    refine ⟨?_, ?_, ?_, ?_⟩
    · rw [nodes_step, ha, hostsOf_append, hostsOf_singleton, firstSeen_append]
      rfl
    · intro e he
      rw [edges_step] at he
      rcases addFlow_endpoints _ _ _ _ e he with ⟨e2, he2, h1, h2⟩ | ⟨h1, h2⟩
      · have hb2 := hb e2 he2
        rw [h1, h2, hN, List.length_append]
        omega
      · rw [h1, h2]
        exact ⟨idxOf_lt_length hsrcN, idxOf_lt_length hdstN⟩
    · rw [edges_step, addFlow_map_upair, hc, pairsOf_append,
        show pairsOf (step (processLines ls) l).nodes [l] =
          [upair (idxOf (step (processLines ls) l).nodes l.src)
            (idxOf (step (processLines ls) l).nodes l.dst)] from rfl,
        firstSeen_concat, hN, pairsOf_extend hhosts]
    · intro f hf
      rw [edges_step] at hf
      rw [hN] at hf ⊢
      have hnodup : ((processLines ls).edges.map fun e => upair e.source e.target).Nodup := by
        rw [hc]
        exact nodup_firstSeen _
      have hW : ∀ e ∈ (processLines ls).edges,
          e.weight = weightSum ((processLines ls).nodes ++ (u1 ++ u2))
            (upair e.source e.target) ls := by
        intro e he
        rw [weightSum_extend _ hhosts]
        exact hw e he
      have h0 : upair (idxOf ((processLines ls).nodes ++ (u1 ++ u2)) l.src)
            (idxOf ((processLines ls).nodes ++ (u1 ++ u2)) l.dst) ∉
            ((processLines ls).edges.map fun e => upair e.source e.target) →
          weightSum ((processLines ls).nodes ++ (u1 ++ u2))
            (upair (idxOf ((processLines ls).nodes ++ (u1 ++ u2)) l.src)
              (idxOf ((processLines ls).nodes ++ (u1 ++ u2)) l.dst)) ls = 0 := by
        intro hnm
        rw [weightSum_extend _ hhosts]
        apply weightSum_eq_zero
        rw [hc] at hnm
        intro hmem
        exact hnm ((mem_firstSeen _).mpr hmem)
      have hfw := addFlow_weight _ _ _ _
        (fun p => weightSum ((processLines ls).nodes ++ (u1 ++ u2)) p ls)
        hnodup hW h0 f hf
      rw [weightSum_concat, hfw]
      by_cases hcond : upair f.source f.target =
          upair (idxOf ((processLines ls).nodes ++ (u1 ++ u2)) l.src)
            (idxOf ((processLines ls).nodes ++ (u1 ++ u2)) l.dst)
      · rw [if_pos hcond, if_pos hcond.symm]
      · rw [if_neg hcond, if_neg fun hEq => hcond hEq.symm]

theorem takeWhile_ne_decomp [DecidableEq α] {h : α} :
    ∀ {xs : List α}, h ∈ xs →
      ∃ s, xs = (xs.takeWhile fun x => decide (x ≠ h)) ++ h :: s ∧
        h ∉ (xs.takeWhile fun x => decide (x ≠ h)) := by
  intro xs hxs
  induction xs with
  | nil => cases hxs
  | cons x xs ih =>
    by_cases hx : x = h
    · refine ⟨xs, ?_, ?_⟩
      · rw [List.takeWhile_cons]
        simp [hx]
      · rw [List.takeWhile_cons]
        simp [hx]
    · have hmem : h ∈ xs := by
        rcases List.mem_cons.mp hxs with h1 | h1
        · exact absurd h1.symm hx
        · exact h1
      obtain ⟨s, hs1, hs2⟩ := ih hmem
      have hpred : decide (x ≠ h) = true := by simp [hx]
      refine ⟨s, ?_, ?_⟩
      · rw [List.takeWhile_cons, hpred]
        simp only [if_true, List.cons_append]
        rw [← hs1]
      · rw [List.takeWhile_cons, hpred]
        simp only [if_true, List.mem_cons]
        rintro (h1 | h1)
        · exact hx h1.symm
        · exact hs2 h1

theorem idxOf_append_cons_self [DecidableEq α] {l₁ : List α} {a : α} (h : a ∉ l₁)
    (l₂ : List α) : idxOf (l₁ ++ a :: l₂) a = l₁.length := by
  induction l₁ with
  | nil => simp [idxOf]
  | cons x l ih =>
    have hx : ¬x = a := by
      intro hEq
      subst hEq
      exact h (List.mem_cons_self x l)
    have h2 : a ∉ l := fun hm => h (List.mem_cons_of_mem x hm)
    simp [idxOf, hx, ih h2]

theorem firstSeen_idxOf [DecidableEq α] {xs : List α} {h : α} (hm : h ∈ xs) :
    idxOf (firstSeen xs) h =
      (firstSeen (xs.takeWhile fun x => decide (x ≠ h))).length := by
  obtain ⟨s, hdec, hnm⟩ := takeWhile_ne_decomp hm
  have hstep : xs = ((xs.takeWhile fun x => decide (x ≠ h)) ++ [h]) ++ s := by
    rw [List.append_assoc, List.singleton_append]
    exact hdec
  have hh : h ∉ firstSeen (xs.takeWhile fun x => decide (x ≠ h)) := fun hc =>
    hnm ((mem_firstSeen _).mp hc)
  conv_lhs => rw [hstep]
  rw [firstSeen_append]
  obtain ⟨t, ht⟩ := foldl_insNew_extend s
    (firstSeen ((xs.takeWhile fun x => decide (x ≠ h)) ++ [h]))
  rw [ht, firstSeen_concat, insNew, if_neg hh, List.append_assoc, List.singleton_append]
  exact idxOf_append_cons_self hh (t)

theorem upair_eq_iff (a b c d : Nat) :
    upair a b = upair c d ↔ (a = c ∧ b = d) ∨ (a = d ∧ b = c) := by
  unfold upair
  split_ifs <;> simp only [Prod.mk.injEq] <;> omega

theorem idxOf_eq_iff [DecidableEq α] {N : List α} (hnd : N.Nodup) {s : α} (hs : s ∈ N)
    {i : Nat} (hi : i < N.length) (d : α) : idxOf N s = i ↔ s = N.getD i d := by
  constructor
  · intro hEq
    rw [← hEq, getD_idxOf hs]
  · intro hEq
    rw [hEq]
    exact idxOf_getD hnd hi d

theorem weightSum_eq_hostPairSum {N : List Str} (hnd : N.Nodup) {i j : Nat}
    (hi : i < N.length) (hj : j < N.length) :
    ∀ {ls : List LogLine}, (∀ l ∈ ls, l.src ∈ N ∧ l.dst ∈ N) →
      weightSum N (upair i j) ls = hostPairSum (N.getD i []) (N.getD j []) ls := by
  intro ls hls
  induction ls with
  | nil => rfl
  | cons x ls ih =>
    have hx := hls x (List.mem_cons_self x ls)
    have hcond : (upair (idxOf N x.src) (idxOf N x.dst) = upair i j) ↔
        ((x.src = N.getD i [] ∧ x.dst = N.getD j []) ∨
          (x.src = N.getD j [] ∧ x.dst = N.getD i [])) := by
      rw [upair_eq_iff, idxOf_eq_iff hnd hx.1 hi, idxOf_eq_iff hnd hx.2 hj,
        idxOf_eq_iff hnd hx.1 hj, idxOf_eq_iff hnd hx.2 hi]
    rw [weightSum, hostPairSum, ih fun l hl => hls l (List.mem_cons_of_mem x hl)]
    congr 1
    exact if_congr hcond rfl rfl

theorem build_eq_processLines (lines : List Str) :
    build lines = processLines (lines.filterMap parseLine) := rfl

theorem build_hosts_mem {lines : List Str} {l : LogLine}
    (hl : l ∈ lines.filterMap parseLine) :
    l.src ∈ (build lines).nodes ∧ l.dst ∈ (build lines).nodes := by
  rw [build_eq_processLines, (processLines_inv _).1, mem_firstSeen, mem_firstSeen]
  exact mem_hostsOf hl

theorem edge_weight_hosts {lines : List Str} {e : Edge} (he : e ∈ (build lines).edges) :
    e.weight = hostPairSum ((build lines).nodes.getD e.source [])
      ((build lines).nodes.getD e.target []) (lines.filterMap parseLine) := by
  obtain ⟨-, hb, -, hw⟩ := processLines_inv (lines.filterMap parseLine)
  have hnd : (build lines).nodes.Nodup := by
    rw [build_eq_processLines, (processLines_inv _).1]
    exact nodup_firstSeen _
  have hbounds := hb e he
  have hhosts : ∀ l ∈ lines.filterMap parseLine,
      l.src ∈ (build lines).nodes ∧ l.dst ∈ (build lines).nodes := fun l hl =>
    build_hosts_mem hl
  rw [build_eq_processLines] at hnd hhosts ⊢
  rw [hw e he, weightSum_eq_hostPairSum hnd hbounds.1 hbounds.2 hhosts]

theorem stripPort_decomp {t : Str} (hdot : '.' ∈ t) :
    ∃ p, t = stripPort t ++ '.' :: p ∧ '.' ∉ p := by
  have hrev : '.' ∈ t.reverse := List.mem_reverse.mpr hdot
  obtain ⟨s, hdec, hnm⟩ := takeWhile_ne_decomp hrev
  have h1 : (t.reverse.takeWhile fun c => decide (c ≠ '.')) ++
      (t.reverse.dropWhile fun c => decide (c ≠ '.')) =
      (t.reverse.takeWhile fun c => decide (c ≠ '.')) ++ ('.' :: s) := by
    rw [List.takeWhile_append_dropWhile]
    exact hdec
  have hdw : t.reverse.dropWhile (fun c => decide (c ≠ '.')) = '.' :: s :=
    List.append_cancel_left h1
  have hsp : stripPort t = s.reverse := by
    unfold stripPort
    rw [hdw]
    rfl
  refine ⟨(t.reverse.takeWhile fun c => decide (c ≠ '.')).reverse, ?_, ?_⟩
  · rw [hsp]
    conv_lhs => rw [← List.reverse_reverse t, hdec]
    rw [List.reverse_append, List.reverse_cons, List.append_assoc, List.singleton_append]
  · rw [List.mem_reverse]
    exact hnm

/-- C1: for the three-line input `IP 10.0.0.1.80 > 10.0.0.2.5000: tcp 100`,
`IP 10.0.0.2.5000 > 10.0.0.1.80: tcp 50`, `IP 10.0.0.1.80 > 10.0.0.3.22: tcp 10`,
the builder produces a node table with exactly 3 rows mapping 10.0.0.1 to index 0,
10.0.0.2 to index 1 and 10.0.0.3 to index 2, and an edge table with exactly the
2 rows (0,1,150) and (0,2,10), in that order. -/
theorem c1_example_tables :
    build [("IP 10.0.0.1.80 > 10.0.0.2.5000: tcp 100").toList,
        ("IP 10.0.0.2.5000 > 10.0.0.1.80: tcp 50").toList,
        ("IP 10.0.0.1.80 > 10.0.0.3.22: tcp 10").toList] =
      { nodes := [("10.0.0.1").toList, ("10.0.0.2").toList, ("10.0.0.3").toList],
        edges := [⟨0, 1, 150⟩, ⟨0, 2, 10⟩] } ∧
    idxOf (build [("IP 10.0.0.1.80 > 10.0.0.2.5000: tcp 100").toList,
        ("IP 10.0.0.2.5000 > 10.0.0.1.80: tcp 50").toList,
        ("IP 10.0.0.1.80 > 10.0.0.3.22: tcp 10").toList]).nodes ("10.0.0.1").toList = 0 ∧
    idxOf (build [("IP 10.0.0.1.80 > 10.0.0.2.5000: tcp 100").toList,
        ("IP 10.0.0.2.5000 > 10.0.0.1.80: tcp 50").toList,
        ("IP 10.0.0.1.80 > 10.0.0.3.22: tcp 10").toList]).nodes ("10.0.0.2").toList = 1 ∧
    idxOf (build [("IP 10.0.0.1.80 > 10.0.0.2.5000: tcp 100").toList,
        ("IP 10.0.0.2.5000 > 10.0.0.1.80: tcp 50").toList,
        ("IP 10.0.0.1.80 > 10.0.0.3.22: tcp 10").toList]).nodes ("10.0.0.3").toList = 2 := by
  refine ⟨by decide, by decide, by decide, by decide⟩

/-- C2: for every input, the weight of every edge row in the output equals the exact
sum of the byte counts of all accepted lines whose source and destination hosts
equal that edge's endpoint hosts in either direction (so `A → B` and `B → A` lines
contribute to the same single edge). -/
theorem c2_edge_weight (lines : List Str) (e : Edge) (he : e ∈ (build lines).edges) :
    e.weight = hostPairSum ((build lines).nodes.getD e.source [])
      ((build lines).nodes.getD e.target []) (lines.filterMap parseLine) :=
  edge_weight_hosts he

theorem c2_witness :
    (⟨0, 1, 150⟩ : Edge) ∈ (build [("IP 10.0.0.1.80 > 10.0.0.2.5000: tcp 100").toList,
        ("IP 10.0.0.2.5000 > 10.0.0.1.80: tcp 50").toList,
        ("IP 10.0.0.1.80 > 10.0.0.3.22: tcp 10").toList]).edges ∧
    (⟨0, 1, 150⟩ : Edge).weight =
      hostPairSum ((build [("IP 10.0.0.1.80 > 10.0.0.2.5000: tcp 100").toList,
          ("IP 10.0.0.2.5000 > 10.0.0.1.80: tcp 50").toList,
          ("IP 10.0.0.1.80 > 10.0.0.3.22: tcp 10").toList]).nodes.getD 0 [])
        ((build [("IP 10.0.0.1.80 > 10.0.0.2.5000: tcp 100").toList,
          ("IP 10.0.0.2.5000 > 10.0.0.1.80: tcp 50").toList,
          ("IP 10.0.0.1.80 > 10.0.0.3.22: tcp 10").toList]).nodes.getD 1 [])
        ([("IP 10.0.0.1.80 > 10.0.0.2.5000: tcp 100").toList,
          ("IP 10.0.0.2.5000 > 10.0.0.1.80: tcp 50").toList,
          ("IP 10.0.0.1.80 > 10.0.0.3.22: tcp 10").toList].filterMap parseLine) :=
  ⟨by decide, c2_edge_weight _ ⟨0, 1, 150⟩ (by decide)⟩

/-- C3: the node table is the first-seen-order list of distinct hosts of the accepted
lines (source position before destination position), its rows are distinct, a host's
index is stable under extending the input, and each host's index equals the number
of distinct hosts seen strictly before its first appearance. -/
theorem c3_node_indices (lines : List Str) :
    (build lines).nodes = firstSeen (hostsOf (lines.filterMap parseLine)) ∧
    (build lines).nodes.Nodup ∧
    (∀ pre post, lines = pre ++ post → ∀ h ∈ (build pre).nodes,
        idxOf (build lines).nodes h = idxOf (build pre).nodes h) ∧
    ∀ h ∈ (build lines).nodes,
      idxOf (build lines).nodes h =
        (firstSeen ((hostsOf (lines.filterMap parseLine)).takeWhile
          fun x => decide (x ≠ h))).length := by
  have ha : (build lines).nodes = firstSeen (hostsOf (lines.filterMap parseLine)) :=
    (processLines_inv _).1
  have hnd : (build lines).nodes.Nodup := by
    rw [ha]
    exact nodup_firstSeen _
  refine ⟨ha, hnd, ?_, ?_⟩
  · intro pre post hsplit h hm
    subst hsplit
    obtain ⟨t, ht⟩ : ∃ t, (build (pre ++ post)).nodes = (build pre).nodes ++ t := by
      rw [build_eq_processLines, build_eq_processLines, (processLines_inv _).1,
        (processLines_inv _).1, List.filterMap_append, hostsOf_append]
      exact firstSeen_extend _ _
    rw [ht]
    exact idxOf_append_left hm t
  · intro h hm
    rw [ha] at hm ⊢
    exact firstSeen_idxOf ((mem_firstSeen _).mp hm)

theorem c3_witness :
    ("10.0.0.1").toList ∈
      (build [("IP 10.0.0.1.80 > 10.0.0.2.5000: tcp 100").toList]).nodes ∧
    idxOf (build [("IP 10.0.0.1.80 > 10.0.0.2.5000: tcp 100").toList,
        ("IP 10.0.0.2.5000 > 10.0.0.1.80: tcp 50").toList,
        ("IP 10.0.0.1.80 > 10.0.0.3.22: tcp 10").toList]).nodes ("10.0.0.1").toList =
      idxOf (build [("IP 10.0.0.1.80 > 10.0.0.2.5000: tcp 100").toList]).nodes
        ("10.0.0.1").toList ∧
    ("10.0.0.2").toList ∈ (build [("IP 10.0.0.1.80 > 10.0.0.2.5000: tcp 100").toList,
        ("IP 10.0.0.2.5000 > 10.0.0.1.80: tcp 50").toList,
        ("IP 10.0.0.1.80 > 10.0.0.3.22: tcp 10").toList]).nodes ∧
    idxOf (build [("IP 10.0.0.1.80 > 10.0.0.2.5000: tcp 100").toList,
        ("IP 10.0.0.2.5000 > 10.0.0.1.80: tcp 50").toList,
        ("IP 10.0.0.1.80 > 10.0.0.3.22: tcp 10").toList]).nodes ("10.0.0.2").toList =
      (firstSeen ((hostsOf ([("IP 10.0.0.1.80 > 10.0.0.2.5000: tcp 100").toList,
          ("IP 10.0.0.2.5000 > 10.0.0.1.80: tcp 50").toList,
          ("IP 10.0.0.1.80 > 10.0.0.3.22: tcp 10").toList].filterMap parseLine)).takeWhile
        fun x => decide (x ≠ ("10.0.0.2").toList))).length :=
  ⟨by decide,
   (c3_node_indices [("IP 10.0.0.1.80 > 10.0.0.2.5000: tcp 100").toList,
      ("IP 10.0.0.2.5000 > 10.0.0.1.80: tcp 50").toList,
      ("IP 10.0.0.1.80 > 10.0.0.3.22: tcp 10").toList]).2.2.1
     [("IP 10.0.0.1.80 > 10.0.0.2.5000: tcp 100").toList]
     [("IP 10.0.0.2.5000 > 10.0.0.1.80: tcp 50").toList,
      ("IP 10.0.0.1.80 > 10.0.0.3.22: tcp 10").toList] rfl
     ("10.0.0.1").toList (by decide),
   by decide,
   (c3_node_indices [("IP 10.0.0.1.80 > 10.0.0.2.5000: tcp 100").toList,
      ("IP 10.0.0.2.5000 > 10.0.0.1.80: tcp 50").toList,
      ("IP 10.0.0.1.80 > 10.0.0.3.22: tcp 10").toList]).2.2.2
     ("10.0.0.2").toList (by decide)⟩

/-- C4: the edge table contains exactly one row per distinct observed unordered pair
of node indices, in order of first observation of each pair: the list of the rows'
unordered pairs equals the first-seen dedup of the stream of observed pairs, and it
has no duplicates. -/
theorem c4_one_edge_per_pair (lines : List Str) :
    ((build lines).edges.map fun e => upair e.source e.target) =
      firstSeen (pairsOf (build lines).nodes (lines.filterMap parseLine)) ∧
    ((build lines).edges.map fun e => upair e.source e.target).Nodup := by
  have h1 : ((build lines).edges.map fun e => upair e.source e.target) =
      firstSeen (pairsOf (build lines).nodes (lines.filterMap parseLine)) :=
    (processLines_inv _).2.2.1
  refine ⟨h1, ?_⟩
  rw [h1]
  exact nodup_firstSeen _

/-- C5: a line that does not match the expected shape is skipped: the tables produced
from any input containing it equal those produced from the input with that line
removed. -/
theorem c5_malformed_skipped (pre post : List Str) (bad : Str)
    (h : parseLine bad = none) : build (pre ++ bad :: post) = build (pre ++ post) := by
  rw [build_eq_processLines, build_eq_processLines, List.filterMap_append,
    List.filterMap_append, List.filterMap_cons_none h]

theorem c5_witness :
    parseLine ("no arrow here").toList = none ∧
    build [("IP 10.0.0.1.80 > 10.0.0.2.5000: tcp 100").toList, ("no arrow here").toList] =
      build [("IP 10.0.0.1.80 > 10.0.0.2.5000: tcp 100").toList] :=
  ⟨by decide, c5_malformed_skipped
    [("IP 10.0.0.1.80 > 10.0.0.2.5000: tcp 100").toList] [] ("no arrow here").toList
    (by decide)⟩

/-- C6: a line whose trailing byte-count token does not parse as a number is not an
error: it still parses to a record with byte count 0, and the builder processes it
through the ordinary per-line step (registering its hosts and updating its edge)
with weight contribution 0. -/
theorem c6_unparseable_bytes (line : Str) (p : Str × Str)
    (hs : parseShape line = some p)
    (hb : (tokens line).getLast?.bind parseNat? = none) :
    parseLine line = some ⟨p.1, p.2, 0⟩ ∧
    ∀ pre, build (pre ++ [line]) = step (build pre) ⟨p.1, p.2, 0⟩ := by
  have hpb : parseBytes line = 0 := by
    simp only [parseBytes, hb]
    rfl
  have h1 : parseLine line = some ⟨p.1, p.2, 0⟩ := by
    simp only [parseLine, hs, Option.map_some', hpb]
  refine ⟨h1, fun pre => ?_⟩
  rw [build_eq_processLines, build_eq_processLines, List.filterMap_append]
  rw [show List.filterMap parseLine [line] = [⟨p.1, p.2, 0⟩] from by
    simp [List.filterMap_cons, h1]]
  exact processLines_concat _ _

theorem c6_witness :
    parseShape ("x IP 1.2.3.4.80 > 5.6.7.8.90: tcp").toList =
      some (("1.2.3.4").toList, ("5.6.7.8").toList) ∧
    (tokens ("x IP 1.2.3.4.80 > 5.6.7.8.90: tcp").toList).getLast?.bind parseNat? = none ∧
    parseLine ("x IP 1.2.3.4.80 > 5.6.7.8.90: tcp").toList =
      some ⟨("1.2.3.4").toList, ("5.6.7.8").toList, 0⟩ ∧
    build [("x IP 1.2.3.4.80 > 5.6.7.8.90: tcp").toList] =
      step (build []) ⟨("1.2.3.4").toList, ("5.6.7.8").toList, 0⟩ :=
  ⟨by decide, by decide,
   (c6_unparseable_bytes ("x IP 1.2.3.4.80 > 5.6.7.8.90: tcp").toList
     (("1.2.3.4").toList, ("5.6.7.8").toList) (by decide) (by decide)).1,
   (c6_unparseable_bytes ("x IP 1.2.3.4.80 > 5.6.7.8.90: tcp").toList
     (("1.2.3.4").toList, ("5.6.7.8").toList) (by decide) (by decide)).2 []⟩

/-- C7: for both the source and the destination token of every accepted line, the
host identifier used as the node key is the token (for the destination, after
removing the trailing colon) with its trailing port stripped, and port stripping
returns exactly everything before the last dot-delimited segment: when the token
contains a dot it splits as `host ++ . ++ port` with a dot-free port. -/
theorem c7_host_key :
    (∀ line i src dst,
        (tokens line).findIdx? (fun t => decide (t = ['>'])) = some i →
        parseShape line = some (src, dst) →
        src = stripPort ((tokens line).getD (i - 1) []) ∧
        dst = stripPort (stripColon ((tokens line).getD (i + 1) []))) ∧
    ∀ t : Str, '.' ∈ t → ∃ p, t = stripPort t ++ '.' :: p ∧ '.' ∉ p := by
  constructor
  · intro line i src dst hfind hps
    simp only [parseShape, hfind] at hps
    by_cases hcond : 1 ≤ i ∧ i + 1 < (tokens line).length
    · rw [if_pos hcond] at hps
      injection hps with hps
      injection hps with h1 h2
      exact ⟨h1.symm, h2.symm⟩
    · rw [if_neg hcond] at hps
      exact absurd hps (by simp)
  · intro t hdot
    exact stripPort_decomp hdot

theorem c7_witness :
    (("10.0.0.1").toList =
        stripPort ((tokens ("IP 10.0.0.1.80 > 10.0.0.2.5000: tcp 100").toList).getD
          (2 - 1) []) ∧
      ("10.0.0.2").toList =
        stripPort (stripColon
          ((tokens ("IP 10.0.0.1.80 > 10.0.0.2.5000: tcp 100").toList).getD (2 + 1) []))) ∧
    ∃ p, ("10.0.0.1.80").toList = stripPort ("10.0.0.1.80").toList ++ '.' :: p ∧
      '.' ∉ p :=
  ⟨c7_host_key.1 ("IP 10.0.0.1.80 > 10.0.0.2.5000: tcp 100").toList 2
    ("10.0.0.1").toList ("10.0.0.2").toList (by decide) (by decide),
   c7_host_key.2 ("10.0.0.1.80").toList (by decide)⟩

/-- C8: an accepted line whose stripped source host equals its stripped destination
host yields a self-edge handled like any other pair: the edge table contains an
edge with both endpoints equal to that host's index, and its weight accumulates
the byte counts of all lines on that degenerate pair. -/
theorem c8_self_edges (lines : List Str) (l : LogLine)
    (hl : l ∈ lines.filterMap parseLine) (hself : l.src = l.dst) :
    ∃ e ∈ (build lines).edges, e.source = e.target ∧
      (build lines).nodes.getD e.source [] = l.src ∧
      e.weight = hostPairSum l.src l.src (lines.filterMap parseLine) := by
  have hsrcN : l.src ∈ (build lines).nodes := (build_hosts_mem hl).1
  have hmapB : ((build lines).edges.map fun e => upair e.source e.target) =
      firstSeen (pairsOf (build lines).nodes (lines.filterMap parseLine)) :=
    (processLines_inv _).2.2.1
  have hp2 : upair (idxOf (build lines).nodes l.src) (idxOf (build lines).nodes l.dst) ∈
      ((build lines).edges.map fun e => upair e.source e.target) := by
    rw [hmapB, mem_firstSeen]
    exact List.mem_map_of_mem _ hl
  obtain ⟨e, he, hupe⟩ := List.mem_map.mp hp2
  have heq := (upair_eq_iff e.source e.target (idxOf (build lines).nodes l.src)
    (idxOf (build lines).nodes l.dst)).mp hupe
  rw [← hself] at heq
  have hse : e.source = idxOf (build lines).nodes l.src ∧
      e.target = idxOf (build lines).nodes l.src := by
    rcases heq with ⟨h1, h2⟩ | ⟨h1, h2⟩ <;> exact ⟨h1, h2⟩
  refine ⟨e, he, ?_, ?_, ?_⟩
  · rw [hse.1, hse.2]
  · rw [hse.1, getD_idxOf hsrcN]
  · rw [edge_weight_hosts he, hse.1, hse.2, getD_idxOf hsrcN]

theorem c8_witness :
    (⟨("10.0.0.1").toList, ("10.0.0.1").toList, 7⟩ : LogLine) ∈
      [("x IP 10.0.0.1.80 > 10.0.0.1.90: tcp 7").toList].filterMap parseLine ∧
    ∃ e ∈ (build [("x IP 10.0.0.1.80 > 10.0.0.1.90: tcp 7").toList]).edges,
      e.source = e.target ∧
      (build [("x IP 10.0.0.1.80 > 10.0.0.1.90: tcp 7").toList]).nodes.getD e.source [] =
        ("10.0.0.1").toList ∧
      e.weight = hostPairSum ("10.0.0.1").toList ("10.0.0.1").toList
        ([("x IP 10.0.0.1.80 > 10.0.0.1.90: tcp 7").toList].filterMap parseLine) :=
  ⟨by decide, c8_self_edges [("x IP 10.0.0.1.80 > 10.0.0.1.90: tcp 7").toList]
    ⟨("10.0.0.1").toList, ("10.0.0.1").toList, 7⟩ (by decide) rfl⟩

/-- C9: a pair of node indices appears in the edge table if and only if at least one
accepted line observes that unordered pair, regardless of its total weight; in
particular an input whose only line carries byte count 0 yields an edge row of
weight exactly 0, which is retained. -/
theorem c9_zero_weight_edges :
    (∀ lines i j,
        (∃ e ∈ (build lines).edges, upair e.source e.target = upair i j) ↔
          upair i j ∈ pairsOf (build lines).nodes (lines.filterMap parseLine)) ∧
    (build [("09:30:07.780000 IP 192.168.27.100.37877 > 192.168.204.45.41936: tcp 0").toList]).edges =
      [⟨0, 1, 0⟩] := by
  constructor
  · intro lines i j
    have hmapB : ((build lines).edges.map fun e => upair e.source e.target) =
        firstSeen (pairsOf (build lines).nodes (lines.filterMap parseLine)) :=
      (processLines_inv _).2.2.1
    constructor
    · rintro ⟨e, he, hup⟩
      have hmem : upair i j ∈ ((build lines).edges.map fun e => upair e.source e.target) := by
        rw [← hup]
        exact List.mem_map_of_mem _ he
      rw [hmapB, mem_firstSeen] at hmem
      exact hmem
    · intro hp
      have hmem : upair i j ∈ ((build lines).edges.map fun e => upair e.source e.target) := by
        rw [hmapB, mem_firstSeen]
        exact hp
      obtain ⟨e, he, hup⟩ := List.mem_map.mp hmem
      exact ⟨e, he, hup⟩
  · decide

/-- C10: an empty input produces an empty node table and an empty edge table. -/
theorem c10_empty_input : build [] = { nodes := [], edges := [] } := rfl

end PacketGraph
